import Mathlib

/-!
Verification of the resource-and-concurrency control layer of the RFSN
controller repository: the LLM response cache, parallel model invocation,
the subprocess worker pool, termination heuristics, retry with backoff,
TTL memoization, resource limiting and the compression helpers.

Python strings are modeled as `String` (or `List Char` where byte-level
facts matter), Python floats as `ℚ`, wall-clock time as an explicit `now : ℚ`
argument, and the SQLite table of the response cache as a `List` of rows.
External libraries (sha256, gzip, the utf-8 codec, the network) are modeled
as abstract function parameters; everything else follows the source line by
line.
-/

namespace RFSN

/-- Substring containment: `strContains pat s` states that the string `s`
contains `pat` as a contiguous substring. Used to state that a reason
message mentions a given phrase. -/
def strContains (pat s : String) : Prop := pat.data <:+: s.data

instance (pat s : String) : Decidable (strContains pat s) :=
  inferInstanceAs (Decidable (pat.data <:+: s.data))

/-- The ten decimal digit characters. -/
def digitChars : List Char := ['0', '1', '2', '3', '4', '5', '6', '7', '8', '9']

/-- Decimal digit character for `d < 10` (out-of-range values are clamped,
they never occur). -/
def dchar (d : Nat) : Char := digitChars.getD d '0'

/-- Decimal digit list of a natural number, most significant digit first.
Models Python `str(n)` for a nonnegative integer `n`. -/
def natDigits (n : Nat) : List Char :=
  if n < 10 then [dchar n]
  else natDigits (n / 10) ++ [dchar (n % 10)]
decreasing_by exact Nat.div_lt_self (by omega) (by omega)

/-- Decimal string of a natural number, models Python `str(n)`. -/
def natStr (n : Nat) : String := String.mk (natDigits n)

/-- Round a rational to the nearest integer, ties to even; models the
rounding used by Python numeric formatting. -/
def roundEven (q : ℚ) : Int :=
  let f := ⌊q⌋
  let r := q - (f : ℚ)
  if r < 1 / 2 then f
  else if 1 / 2 < r then f + 1
  else if f % 2 = 0 then f else f + 1

/-- Model of the Python format `"{:.1%}".format(q)`: the value scaled to a
percentage, one decimal place, followed by a percent sign. -/
def fmtPercent (q : ℚ) : String :=
  let m := roundEven (q * 1000)
  let n := m.natAbs
  (if m < 0 then "-" else "") ++ natStr (n / 10) ++ "." ++ natStr (n % 10) ++ "%"

/-! ### Model invocation layer (`rfsn_controller/llm_async.py`) -/

/-- Model of the `AsyncLLMResponse` dataclass. -/
structure AsyncLLMResponse where
  content : String
  model : String
  temperature : ℚ
  promptTokens : Nat := 0
  completionTokens : Nat := 0
  latencyMs : ℚ := 0
  cached : Bool := false
deriving Repr, DecidableEq

/-- Error outcomes of a model call: `httpx` not importable (the
`RuntimeError` raised first thing), no credential, a non-2xx response
(`raise_for_status`), or a timeout. The source itself never constructs
`backendUnavailable`; the constructor exists so that the spec claim about it
can be stated. -/
inductive LLMError where
  | httpxMissing
  | backendUnavailable
  | backendError (status : Nat)
  | timeout
deriving Repr, DecidableEq

/-- The literal mock content returned by `call_deepseek_async` when no
`DEEPSEEK_API_KEY` is configured. -/
def mockContent : String :=
  "\x7b\"mode\": \"tool_request\", \"requests\": [], \"why\": \"Mocked - no API key\"\x7d"

/-- Model of `call_deepseek_async`. The HTTP exchange performed when a
credential is present is external to the repository and is modeled by the
oracle `net`; the no-`httpx` branch and the no-credential mock branch are
translated literally from the source. -/
def call_deepseek_async
    (net : String → ℚ → String → Option String → Except LLMError AsyncLLMResponse)
    (httpxAvailable : Bool) (apiKey : Option String)
    (prompt : String) (temperature : ℚ) (modelName : String)
    (systemPrompt : Option String) : Except LLMError AsyncLLMResponse :=
  if ¬ httpxAvailable then .error .httpxMissing
  else
    match apiKey with
    | none =>
        .ok { content := mockContent, model := modelName, temperature := temperature,
              promptTokens := 0, completionTokens := 0, latencyMs := 0, cached := false }
    | some _ => net prompt temperature modelName systemPrompt

/-- Model of `call_parallel`: `asyncio.gather(*tasks, return_exceptions=True)`
resolves the i-th task independently of its siblings to either a response or
its captured exception, and places that outcome at position i of the result.
The per-task resolution is the oracle `outcome`, indexed by task position. -/
def call_parallel (outcome : Nat → String × ℚ → Except LLMError AsyncLLMResponse)
    (prompts : List (String × ℚ)) : List (Except LLMError AsyncLLMResponse) :=
  prompts.enum.map (fun p => outcome p.1 p.2)

/-! ### Response cache (`LLMCache` in `rfsn_controller/llm_async.py`) -/

/-- One row of the SQLite `cache` table. -/
structure CacheRow where
  promptHash : String
  prompt : String
  model : String
  temperature : ℚ
  response : String
  createdAt : ℚ
  hitCount : Nat
deriving Repr, DecidableEq

/-- Model of `LLMCache`: the configuration fields, whether the connection is
open (`_conn` is not `None`), and the rows of the `cache` table. -/
structure LLMCache where
  maxAgeHours : ℚ
  maxEntries : Nat
  connOpen : Bool
  rows : List CacheRow
deriving Repr, DecidableEq

/-- Comparator used by the janitor pass of the cache: ascending `created_at`
(the `ORDER BY created_at ASC` of `_cleanup`). -/
def rowLE (a b : CacheRow) : Bool := decide (a.createdAt ≤ b.createdAt)

/-- Model of `LLMCache._cleanup`: delete every row strictly older than
`max_age_hours`, then, if more than `max_entries` rows remain, delete the
`count - max_entries` rows with the smallest `created_at`. -/
def LLMCache.cleanup (c : LLMCache) (now : ℚ) : LLMCache :=
  if ¬ c.connOpen then c
  else
    let cutoff := now - c.maxAgeHours * 3600
    let kept := c.rows.filter (fun r => decide (cutoff ≤ r.createdAt))
    if c.maxEntries < kept.length then
      { c with rows := (kept.mergeSort rowLE).drop (kept.length - c.maxEntries) }
    else
      { c with rows := kept }

/-- The rows of the `cache` table right after the `INSERT OR REPLACE` of
`LLMCache.set` (the new row unconditionally supersedes any row with the same
key; the stored prompt is truncated to its first 1000 characters). `hp`
models `_hash_prompt`, i.e. the truncated sha256 digest of
`model:temperature:prompt`; the claims hold for every such digest
function. -/
def newCacheRow (hp : String → String → ℚ → String) (now : ℚ)
    (prompt modelName : String) (temperature : ℚ) (response : String) : CacheRow :=
  { promptHash := hp prompt modelName temperature, prompt := prompt.take 1000,
    model := modelName, temperature := temperature, response := response,
    createdAt := now, hitCount := 0 }

def upsertRows (hp : String → String → ℚ → String) (c : LLMCache) (now : ℚ)
    (prompt modelName : String) (temperature : ℚ) (response : String) : List CacheRow :=
  c.rows.filter (fun r => r.promptHash != hp prompt modelName temperature) ++
    [newCacheRow hp now prompt modelName temperature response]

/-- The table contents right after the upsert of `LLMCache.set`, with the
age-based janitor deletion applied: the rows the janitor's size bound is
then enforced on. -/
def liveRows (hp : String → String → ℚ → String) (c : LLMCache) (now : ℚ)
    (prompt modelName : String) (temperature : ℚ) (response : String) : List CacheRow :=
  (upsertRows hp c now prompt modelName temperature response).filter
    (fun r => decide (now - c.maxAgeHours * 3600 ≤ r.createdAt))

/-- Model of `LLMCache.set`: no-op when the connection is closed, otherwise
upsert the row and run the janitor pass. -/
def LLMCache.set (hp : String → String → ℚ → String) (c : LLMCache) (now : ℚ)
    (prompt modelName : String) (temperature : ℚ) (response : String) : LLMCache :=
  if ¬ c.connOpen then c
  else
    LLMCache.cleanup { c with rows := upsertRows hp c now prompt modelName temperature response } now

/-- Model of `LLMCache.get`: look the key up; a row strictly older than
`max_age_hours` is deleted and reported absent; a fresh row has its
`hit_count` incremented and is returned with `cached := true`. Returns the
looked-up response together with the post-lookup cache state. -/
def LLMCache.get (hp : String → String → ℚ → String) (c : LLMCache) (now : ℚ)
    (prompt modelName : String) (temperature : ℚ) :
    Option AsyncLLMResponse × LLMCache :=
  if ¬ c.connOpen then (none, c)
  else
    let h := hp prompt modelName temperature
    match c.rows.find? (fun r => r.promptHash == h) with
    | none => (none, c)
    | some r =>
      if c.maxAgeHours < (now - r.createdAt) / 3600 then
        (none, { c with rows := c.rows.filter (fun x => x.promptHash != h) })
      else
        (some { content := r.response, model := modelName, temperature := temperature,
                promptTokens := 0, completionTokens := 0, latencyMs := 0, cached := true },
         { c with rows := c.rows.map (fun x =>
             if x.promptHash == h then { x with hitCount := x.hitCount + 1 } else x) })

/-! ### Subprocess pool (`rfsn_controller/optimizations.py`) -/

/-- Model of `SubprocessWorker`: `alive` states that `process.poll()` is
`None`, i.e. the owned process has not exited. -/
structure SubprocessWorker where
  alive : Bool
  last_used : ℚ
  in_use : Bool
deriving Repr, DecidableEq

/-- Model of `SubprocessPool` (the worker list; the lock serializes the
operations and is implicit in the sequential model). -/
structure SubprocessPool where
  max_workers : Nat := 4
  max_idle_time : ℚ := 60
  workers : List SubprocessWorker := []
deriving Repr, DecidableEq

/-- Index of the first worker that is not in use and whose process is still
alive (the scan loop of `SubprocessPool.acquire`). -/
def findAvailable : List SubprocessWorker → Option Nat
  | [] => none
  | w :: rest =>
      if ¬ w.in_use ∧ w.alive then some 0
      else (findAvailable rest).map (· + 1)

/-- Mark the worker at position `i` as in use and touch its `last_used`. -/
def markInUse : List SubprocessWorker → Nat → ℚ → List SubprocessWorker
  | [], _, _ => []
  | w :: rest, 0, now => { w with in_use := true, last_used := now } :: rest
  | w :: rest, i + 1, now => w :: markInUse rest i now

/-- Model of `SubprocessPool.acquire`: return the first free live worker,
else spawn a new one if the pool is below `max_workers`, else `none`. The
returned value is the index of the acquired worker in the pool. -/
def SubprocessPool.acquire (p : SubprocessPool) (now : ℚ) :
    Option Nat × SubprocessPool :=
  match findAvailable p.workers with
  | some i => (some i, { p with workers := markInUse p.workers i now })
  | none =>
      if p.workers.length < p.max_workers then
        (some p.workers.length,
         { p with workers := p.workers ++
             [{ alive := true, last_used := now, in_use := true }] })
      else (none, p)

/-- Mark the worker at position `i` as not in use and touch its
`last_used`. -/
def markFree : List SubprocessWorker → Nat → ℚ → List SubprocessWorker
  | [], _, _ => []
  | w :: rest, 0, now => { w with in_use := false, last_used := now } :: rest
  | w :: rest, i + 1, now => w :: markFree rest i now

/-- Model of `SubprocessPool.release`: mark the worker as available again;
no liveness check is performed. -/
def SubprocessPool.release (p : SubprocessPool) (i : Nat) (now : ℚ) : SubprocessPool :=
  { p with workers := markFree p.workers i now }

/-! ### Compression helpers (`rfsn_controller/optimizations.py`) -/

/-- Byte strings. -/
abbrev Bytes := List Nat

/-- The external codecs used by the compression helpers: the utf-8 codec of
`str.encode` / `bytes.decode` and the gzip library. They are not repository
code; they are modeled as abstract functions, and the losslessness the
claims rely on is stated as the explicit hypothesis `Codec.lossless`. -/
structure Codec where
  enc : List Char → Bytes
  dec : Bytes → List Char
  zip : Bytes → Bytes
  unzip : Bytes → Bytes

/-- The documented contract of the external codecs: decoding inverts
encoding and gzip decompression inverts gzip compression. -/
def Codec.lossless (cd : Codec) : Prop :=
  (∀ s, cd.dec (cd.enc s) = s) ∧ (∀ b, cd.unzip (cd.zip b) = b)

/-- Model of `compress_response`. -/
def compress_response (cd : Codec) (content : List Char) : Bytes :=
  cd.zip (cd.enc content)

/-- Model of `decompress_response`. -/
def decompress_response (cd : Codec) (data : Bytes) : List Char :=
  cd.dec (cd.unzip data)

/-- Model of `compress_if_large`: compress only when the encoded content
reaches the threshold and compression saves at least ten percent. -/
def compress_if_large (cd : Codec) (content : List Char) (threshold : Nat) :
    Bool × Bytes :=
  let contentBytes := cd.enc content
  if threshold ≤ contentBytes.length then
    let compressed := cd.zip contentBytes
    if (compressed.length : ℚ) < (contentBytes.length : ℚ) * (9 / 10) then
      (true, compressed)
    else (false, contentBytes)
  else (false, contentBytes)

/-- Model of `decompress_if_needed`. -/
def decompress_if_needed (cd : Codec) (p : Bool × Bytes) : List Char :=
  if p.1 then cd.dec (cd.unzip p.2) else cd.dec p.2

/-! ### Termination heuristics (`rfsn_controller/optimizations.py`) -/

/-- Model of `TerminationHeuristics` (configuration and internal state; the
`deque(maxlen=20)` of patch hashes is a list bounded by `pushRing`). -/
structure TerminationHeuristics where
  min_steps : Nat := 3
  max_consecutive_failures : Nat := 5
  max_similar_patches : Nat := 3
  min_success_rate : ℚ := 1 / 20
  patch_hashes : List String := []
  consecutive_failures : Nat := 0
  total_attempts : Nat := 0
  successful_attempts : Nat := 0
deriving Repr, DecidableEq

/-- Append to a ring buffer of capacity `cap` (`deque(maxlen=cap)`): the
oldest element is evicted once the buffer is at capacity. -/
def pushRing (cap : Nat) (l : List String) (x : String) : List String :=
  let l2 := l ++ [x]
  l2.drop (l2.length - cap)

/-- Model of `TerminationHeuristics.record_attempt`. `hashFn` models the
external sha256 digest truncated to 16 hex characters. -/
def TerminationHeuristics.record_attempt (hashFn : String → String)
    (h : TerminationHeuristics) (diff : String) (success : Bool) :
    TerminationHeuristics :=
  let h1 := { h with total_attempts := h.total_attempts + 1 }
  let h2 :=
    if success then
      { h1 with successful_attempts := h1.successful_attempts + 1,
                consecutive_failures := 0 }
    else
      { h1 with consecutive_failures := h1.consecutive_failures + 1 }
  { h2 with patch_hashes := pushRing 20 h2.patch_hashes (hashFn diff) }

/-- Python slice `l[-k:]` on a list: the last `k` elements, the whole list
when `k = 0` (negative zero indexes the whole list in Python). -/
def pySliceLast (l : List String) (k : Nat) : List String :=
  if k = 0 then l else l.drop (l.length - k)

/-- Model of `len(set(recent)) == 1`: the list is nonempty and all its
elements are equal. -/
def allEqOne : List String → Bool
  | [] => false
  | x :: xs => xs.all (fun y => y == x)

/-- Model of `TerminationHeuristics.should_terminate`, evaluated in the fixed
priority order of the source: consecutive failures, then repeated identical
patches, then low success rate. -/
def TerminationHeuristics.should_terminate (h : TerminationHeuristics) :
    Bool × String :=
  if h.max_consecutive_failures ≤ h.consecutive_failures then
    (true, "Too many consecutive failures (" ++ natStr h.consecutive_failures ++ ")")
  else if h.max_similar_patches ≤ h.patch_hashes.length ∧
      allEqOne (pySliceLast h.patch_hashes h.max_similar_patches) = true then
    (true, "Repeated identical patches")
  else if h.min_steps ≤ h.total_attempts ∧
      (h.successful_attempts : ℚ) / (h.total_attempts : ℚ) < h.min_success_rate then
    (true, "Success rate too low (" ++
      fmtPercent ((h.successful_attempts : ℚ) / (h.total_attempts : ℚ)) ++ ")")
  else (false, "")

/-- Fold a list of `(diff, success)` attempts into the heuristics state. -/
def recordList (hashFn : String → String) (h : TerminationHeuristics) :
    List (String × Bool) → TerminationHeuristics
  | [] => h
  | a :: rest => recordList hashFn (h.record_attempt hashFn a.1 a.2) rest

/-- A run of `k` sequential failing attempts with diffs `d 0, …, d (k-1)`. -/
def failAttempts (d : Nat → String) (k : Nat) : List (String × Bool) :=
  (List.range k).map (fun i => (d i, false))

/-! ### Retry with backoff (`rfsn_controller/optimizations.py`) -/

/-- The inter-attempt delay of `retry_with_backoff`:
`min(base_delay * exponential_base ** attempt, max_delay)`. -/
def backoffDelay (baseDelay maxDelay expBase : ℚ) (attempt : Nat) : ℚ :=
  min (baseDelay * expBase ^ attempt) maxDelay

/-- The retry loop of `retry_with_backoff`, starting at `attempt` with a
given number of retries still allowed. `outcome i` is the result of the
i-th invocation of the wrapped operation; `retryable` models membership in
`retryable_exceptions` (a non-retryable failure propagates immediately).
Returns the final result, the number of invocations performed, and the list
of delays slept between consecutive attempts. -/
def retryGo {E A : Type} (retryable : E → Bool) (baseDelay maxDelay expBase : ℚ)
    (outcome : Nat → Except E A) (attempt : Nat) :
    Nat → Except E A × Nat × List ℚ
  | 0 =>
    match outcome attempt with
    | .ok a => (.ok a, 1, [])
    | .error e => (.error e, 1, [])
  | k + 1 =>
    match outcome attempt with
    | .ok a => (.ok a, 1, [])
    | .error e =>
      if retryable e then
        let rest := retryGo retryable baseDelay maxDelay expBase outcome (attempt + 1) k
        (rest.1, rest.2.1 + 1, backoffDelay baseDelay maxDelay expBase attempt :: rest.2.2)
      else (.error e, 1, [])

/-- Model of a call through the `retry_with_backoff` wrapper: up to
`max_retries + 1` attempts starting at attempt 0. -/
def retry_with_backoff {E A : Type} (max_retries : Nat)
    (baseDelay maxDelay expBase : ℚ) (retryable : E → Bool)
    (outcome : Nat → Except E A) : Except E A × Nat × List ℚ :=
  retryGo retryable baseDelay maxDelay expBase outcome 0 max_retries

/-! ### Memoization with TTL (`rfsn_controller/optimizations.py`) -/

/-- The cache of one `memoize_with_ttl` wrapper: entries `(key, (timestamp,
value))` in insertion order (a Python dict preserves insertion order). -/
abbrev MemoCache (V : Type) := List (String × ℚ × V)

/-- Dictionary lookup `cache[key]`. -/
def memoLookup {V : Type} (c : MemoCache V) (k : String) : Option (ℚ × V) :=
  (c.find? (fun e => e.1 == k)).map (fun e => e.2)

/-- Dictionary deletion `del cache[key]` (keys are unique in every reachable
cache, so removing every binding of `k` is the same operation). -/
def memoErase {V : Type} (c : MemoCache V) (k : String) : MemoCache V :=
  c.filter (fun e => e.1 != k)

/-- Dictionary assignment `cache[key] = (ts, v)`: update in place if the key
is present, otherwise append. -/
def memoInsert {V : Type} (c : MemoCache V) (k : String) (ts : ℚ) (v : V) :
    MemoCache V :=
  if (c.find? (fun e => e.1 == k)).isSome then
    c.map (fun e => if e.1 == k then (k, ts, v) else e)
  else c ++ [(k, ts, v)]

/-- The eviction of `memoize_with_ttl`:
`oldest_key = min(cache, key=lambda k: cache[k][0]); del cache[oldest_key]`.
`min` returns the first key attaining the minimal timestamp in iteration
order, so the first such entry is removed. (On an empty cache Python `min`
raises; that state is unreachable because eviction only runs when the cache
is at a positive capacity bound.) -/
def memoEvictOldest {V : Type} (c : MemoCache V) : MemoCache V :=
  match (c.map (fun e => e.2.1)).min? with
  | none => c
  | some m => c.eraseP (fun e => decide (e.2.1 = m))

/-- Model of one call through a `memoize_with_ttl(ttl_seconds, maxsize)`
wrapper of `f`, at wall-clock `now`, with the current cache. `keyOf` models
`str((args, tuple(sorted(kwargs.items()))))`. Returns the value, the new
cache, and whether the wrapped function was invoked. -/
def memoize_with_ttl_step {α V : Type} (keyOf : α → String) (f : α → V)
    (ttl_seconds : ℚ) (maxsize : Nat) (now : ℚ) (cache : MemoCache V) (a : α) :
    V × MemoCache V × Bool :=
  let key := keyOf a
  match memoLookup cache key with
  | some tv =>
    if now - tv.1 < ttl_seconds then (tv.2, cache, false)
    else
      let c1 := memoErase cache key
      let v2 := f a
      let c2 := if maxsize ≤ c1.length then memoEvictOldest c1 else c1
      (v2, memoInsert c2 key now v2, true)
  | none =>
    let v2 := f a
    let c2 := if maxsize ≤ cache.length then memoEvictOldest cache else cache
    (v2, memoInsert c2 key now v2, true)

/-! ### Resource limits (`rfsn_controller/optimizations.py`) -/

/-- Model of the `ResourceLimits` dataclass. -/
structure ResourceLimits where
  max_memory_mb : Nat := 4096
  max_cpu_seconds : ℚ := 300
  max_file_size_mb : Nat := 100
  max_output_size_mb : Nat := 10
deriving Repr, DecidableEq

/-- The truncation marker appended by `limit_output`:
`"\n... [truncated {n} chars]"`. -/
def truncMarker (n : Nat) : List Char :=
  "\n... [truncated ".data ++ natDigits n ++ " chars]".data

/-- Model of `ResourceLimits.limit_output`. The Python string is a sequence
of code points, modeled as `List Char`; `len(output)` is its length in
characters (not bytes). -/
def ResourceLimits.limit_output (rl : ResourceLimits) (output : List Char) :
    List Char :=
  let maxChars := rl.max_output_size_mb * 1024 * 1024
  if maxChars < output.length then
    output.take maxChars ++ truncMarker (output.length - maxChars)
  else output

/-- Utf-8 length in bytes of a Python string (`len(s.encode("utf-8"))`).
Used only to state the byte-budget reading of the output-limiting claim. -/
def utf8Len (l : List Char) : Nat := (l.map Char.utf8Size).sum

/-- Byte-budget reading of the output-limiting claim: when the utf-8 size of
the text exceeds `max_output_size_mb` megabytes, the result is a prefix of
the text followed by the truncation marker; otherwise the text is returned
unchanged. -/
def limitOutputByteSpec (rl : ResourceLimits) (output : List Char) : Prop :=
  if rl.max_output_size_mb * 1024 * 1024 < utf8Len output then
    ∃ kept dropped, kept <+: output ∧
      rl.limit_output output = kept ++ truncMarker dropped
  else rl.limit_output output = output

/-- Concrete empty open cache with the default configuration, used to
instantiate the round-trip claim. -/
def emptyCache : LLMCache :=
  { maxAgeHours := 24, maxEntries := 10000, connOpen := true, rows := [] }

/-- Concrete stale row, used to instantiate the eviction claim. -/
def staleRow : CacheRow :=
  { promptHash := "p" ++ "model", prompt := "p", model := "model",
    temperature := 0, response := "old", createdAt := 0, hitCount := 0 }

/-- Concrete one-row open cache holding `staleRow`, used to instantiate the
eviction claim. -/
def staleCache : LLMCache :=
  { maxAgeHours := 1, maxEntries := 10, connOpen := true, rows := [staleRow] }

/-- A concrete lossless codec (identity compression, code points as bytes),
used to instantiate codec hypotheses on concrete inputs. -/
def idCodec : Codec where
  enc s := s.map Char.toNat
  dec b := b.map Char.ofNat
  zip b := b
  unzip b := b

/-!
## Theorems

Helper lemmas first, then one theorem per claim (with the witnesses and
counterexamples the claim statuses require).
-/

theorem str_data_append (s t : String) : (s ++ t).data = s.data ++ t.data := rfl

theorem strContains_append_right {pat s : String} (t : String)
    (h : strContains pat s) : strContains pat (s ++ t) := by
  obtain ⟨u, v, huv⟩ := h
  exact ⟨u, v ++ t.data, by rw [str_data_append, ← huv]; simp⟩

theorem strContains_append_left {pat s : String} (t : String)
    (h : strContains pat s) : strContains pat (t ++ s) := by
  obtain ⟨u, v, huv⟩ := h
  exact ⟨t.data ++ u, v, by rw [str_data_append, ← huv]; simp⟩

theorem not_strContains_of_mem {pat s : String} {c : Char}
    (hc : c ∈ pat.data) (hs : c ∉ s.data) : ¬ strContains pat s :=
  fun h => hs (h.subset hc)

theorem dchar_mem_digitChars (d : Nat) : dchar d ∈ digitChars := by
  unfold dchar
  rcases Nat.lt_or_ge d 10 with h | h
  · interval_cases d <;> decide
  · rw [List.getD_eq_default _ _ (by simpa [digitChars] using h)]; decide

theorem natDigits_subset_digitChars (n : Nat) :
    ∀ c ∈ natDigits n, c ∈ digitChars := by
  induction n using Nat.strong_induction_on with
  | _ n ih =>
    intro c hc
    rw [natDigits] at hc
    by_cases h : n < 10
    · rw [if_pos h] at hc
      rcases List.mem_singleton.mp hc with rfl
      exact dchar_mem_digitChars n
    · rw [if_neg h] at hc
      rcases List.mem_append.mp hc with h1 | h1
      · exact ih (n / 10) (Nat.div_lt_self (by omega) (by omega)) c h1
      · rcases List.mem_singleton.mp h1 with rfl
        exact dchar_mem_digitChars (n % 10)

theorem v_not_mem_natStr (n : Nat) : 'v' ∉ (natStr n).data := by
  intro h
  have := natDigits_subset_digitChars n 'v' h
  revert this; decide

theorem v_not_mem_fmtPercent (q : ℚ) : 'v' ∉ (fmtPercent q).data := by
  unfold fmtPercent
  intro h
  rw [str_data_append, str_data_append, str_data_append, str_data_append] at h
  simp only [List.mem_append] at h
  rcases h with ((((h | h) | h) | h) | h)
  · rcases lt_or_le (roundEven (q * 1000)) 0 with hm | hm
    · rw [if_pos hm] at h; revert h; decide
    · rw [if_neg (not_lt.mpr hm)] at h; revert h; decide
  · exact v_not_mem_natStr _ h
  · revert h; decide
  · exact v_not_mem_natStr _ h
  · revert h; decide

theorem find?_eq_some_of_unique {α : Type} {p : α → Bool} {l : List α} {a : α}
    (ha : a ∈ l) (hpa : p a = true) (huniq : ∀ x ∈ l, p x = true → x = a) :
    l.find? p = some a := by
  induction l with
  | nil => cases ha
  | cons b rest ih =>
    by_cases hb : p b = true
    · rw [List.find?_cons_of_pos _ hb, huniq b (List.mem_cons_self b rest) hb]
    · rw [List.find?_cons_of_neg _ hb]
      rcases List.mem_cons.mp ha with rfl | ha2
      · exact absurd hpa hb
      · exact ih ha2 (fun x hx hpx => huniq x (List.mem_cons_of_mem _ hx) hpx)

/-- C10: the compression helpers are lossless inverses at the public
interface: `decompress_response` inverts `compress_response`, and
`decompress_if_needed` inverts `compress_if_large` for every threshold,
given the documented losslessness of the external utf-8 and gzip codecs. -/
theorem compression_roundtrip (cd : Codec) (h : cd.lossless) (s : List Char)
    (threshold : Nat) :
    decompress_response cd (compress_response cd s) = s ∧
    decompress_if_needed cd (compress_if_large cd s threshold) = s := by
  obtain ⟨hdec, hunzip⟩ := h
  constructor
  · simp [decompress_response, compress_response, hdec, hunzip]
  · unfold compress_if_large decompress_if_needed
    by_cases h1 : threshold ≤ (cd.enc s).length
    · by_cases h2 : ((cd.zip (cd.enc s)).length : ℚ) < ((cd.enc s).length : ℚ) * (9 / 10)
      · simp [h1, h2, hdec, hunzip]
      · simp [h1, h2, hdec]
    · simp [h1, hdec]

/-- Witness for C10 at a concrete lossless codec and concrete input. -/
theorem compression_roundtrip_witness :
    idCodec.lossless ∧
    decompress_response idCodec (compress_response idCodec "hello".data) = "hello".data := by
  have hl : idCodec.lossless := by
    constructor
    · intro s
      simp only [idCodec, List.map_map]
      have : Char.ofNat ∘ Char.toNat = id := funext fun c => Char.ofNat_toNat c
      rw [this, List.map_id]
    · intro b; rfl
  exact ⟨hl, (compression_roundtrip idCodec hl "hello".data 1000).1⟩

/-- C8 counterexample: with no credential configured, `call_deepseek_async`
does not fail with `BackendUnavailable` (or with anything else); it succeeds
with the mock response. Shown at a concrete input whose network oracle only
ever fails, so the success cannot come from the network path. -/
theorem no_credential_counterexample :
    call_deepseek_async (fun _ _ _ _ => .error .timeout) true none
        "p" 0 "deepseek-chat" none =
      .ok { content := mockContent, model := "deepseek-chat", temperature := 0,
            promptTokens := 0, completionTokens := 0, latencyMs := 0,
            cached := false } ∧
    (Except.ok { content := mockContent, model := "deepseek-chat",
                 temperature := 0, promptTokens := 0, completionTokens := 0,
                 latencyMs := 0, cached := false } :
        Except LLMError AsyncLLMResponse) ≠ .error .backendUnavailable := by
  exact ⟨rfl, by simp⟩

/-- C8 (amended): when `httpx` is importable and no API credential is
configured, `call_deepseek_async` returns (rather than raising) a
deterministic placeholder response: for every prompt, temperature, model and
system prompt the result is the fixed mock response with `cached = false`,
independent of the network, so two such calls yield the identical
placeholder and no crash occurs. -/
theorem no_credential_placeholder
    (net net2 : String → ℚ → String → Option String → Except LLMError AsyncLLMResponse)
    (prompt : String) (temperature : ℚ) (modelName : String)
    (systemPrompt : Option String) :
    call_deepseek_async net true none prompt temperature modelName systemPrompt =
      .ok { content := mockContent, model := modelName,
            temperature := temperature, promptTokens := 0,
            completionTokens := 0, latencyMs := 0, cached := false } ∧
    call_deepseek_async net true none prompt temperature modelName systemPrompt =
      call_deepseek_async net2 true none prompt temperature modelName systemPrompt :=
  ⟨rfl, rfl⟩

theorem utf8Len_replicate (n : Nat) (c : Char) :
    utf8Len (List.replicate n c) = n * c.utf8Size := by
  simp [utf8Len, List.map_replicate, List.sum_replicate, smul_eq_mul]

/-- C9 counterexample: with `max_output_size_mb = 1`, a string of 2^20
two-byte characters occupies 2^21 bytes — strictly over the byte budget —
yet `limit_output` returns it unchanged, with no truncation marker. The
budget in the source is measured in characters (`len(output)`), not
bytes. -/
theorem limit_output_byte_counterexample :
    ¬ limitOutputByteSpec { max_output_size_mb := 1 }
        (List.replicate 1048576 'é') := by
  have hsize : Char.utf8Size 'é' = 2 := rfl
  have hb : utf8Len (List.replicate 1048576 'é') = 2097152 := by
    rw [utf8Len_replicate, hsize]
  have hlen : (List.replicate 1048576 'é').length = 1048576 :=
    List.length_replicate 1048576 'é'
  have hunchanged :
      ResourceLimits.limit_output { max_output_size_mb := 1 }
        (List.replicate 1048576 'é') = List.replicate 1048576 'é' := by
    unfold ResourceLimits.limit_output
    rw [if_neg]
    rw [hlen]
    norm_num
  unfold limitOutputByteSpec
  rw [if_pos (by rw [hb]; norm_num)]
  rintro ⟨kept, dropped, hpre, heq⟩
  rw [hunchanged] at heq
  have hmem : (']' : Char) ∈ List.replicate 1048576 'é' := by
    rw [heq]
    refine List.mem_append.mpr (Or.inr ?_)
    unfold truncMarker
    refine List.mem_append.mpr (Or.inr ?_)
    decide
  have := List.eq_of_mem_replicate hmem
  revert this; decide

/-- C9 (amended): `limit_output` is total (never raises); the budget is
`max_output_size_mb` megabytes measured in characters: text within the
budget is returned unchanged, text over the budget is truncated to the
first `max_output_size_mb * 1024 * 1024` characters with a marker appended
stating exactly how many characters were dropped. -/
theorem limit_output_spec (rl : ResourceLimits) (output : List Char) :
    (output.length ≤ rl.max_output_size_mb * 1024 * 1024 →
      rl.limit_output output = output) ∧
    (rl.max_output_size_mb * 1024 * 1024 < output.length →
      rl.limit_output output =
        output.take (rl.max_output_size_mb * 1024 * 1024) ++
          truncMarker (output.length - rl.max_output_size_mb * 1024 * 1024)) := by
  constructor
  · intro h
    unfold ResourceLimits.limit_output
    rw [if_neg (not_lt.mpr h)]
  · intro h
    unfold ResourceLimits.limit_output
    rw [if_pos h]

/-- Witness for C9 (amended) at a concrete over-budget input. -/
theorem limit_output_spec_witness :
    (0 * 1024 * 1024 < ("abcd".data).length) ∧
    ResourceLimits.limit_output { max_output_size_mb := 0 } "abcd".data =
      ("abcd".data).take (0 * 1024 * 1024) ++
        truncMarker (("abcd".data).length - 0 * 1024 * 1024) :=
  ⟨by decide, (limit_output_spec { max_output_size_mb := 0 } "abcd".data).2 (by decide)⟩

/-- C3: `call_parallel` on N requests returns exactly N results; the i-th
result is the outcome (response or captured exception) of the i-th request,
in input order; and the result at position i depends only on the i-th
request's own outcome — changing every other request's outcome (for example
making a sibling fail) never cancels, removes, or alters it. -/
theorem call_parallel_contract
    (outcome outcome2 : Nat → String × ℚ → Except LLMError AsyncLLMResponse)
    (prompts : List (String × ℚ)) :
    (call_parallel outcome prompts).length = prompts.length ∧
    (∀ i p, prompts[i]? = some p →
      (call_parallel outcome prompts)[i]? = some (outcome i p)) ∧
    (∀ i p, prompts[i]? = some p → outcome i p = outcome2 i p →
      (call_parallel outcome prompts)[i]? = (call_parallel outcome2 prompts)[i]?) := by
  refine ⟨by simp [call_parallel], ?_, ?_⟩
  · intro i p hp
    unfold call_parallel
    rw [List.getElem?_map, List.getElem?_enum, hp]
    rfl
  · intro i p hp hsame
    unfold call_parallel
    rw [List.getElem?_map, List.getElem?_enum, hp,
        List.getElem?_map, List.getElem?_enum, hp]
    simp [hsame]

/-- Witness for C3: three requests in which (only) the second fails. -/
theorem call_parallel_contract_witness :
    ([("p", (0 : ℚ)), ("p", 1), ("p", 2)][1]? = some ("p", (1 : ℚ))) ∧
    (call_parallel
        (fun i p => if i = 1 then .error (.backendError 500)
          else .ok { content := "ok", model := "m", temperature := p.2 })
        [("p", 0), ("p", 1), ("p", 2)])[1]? =
      some (.error (.backendError 500)) := by
  refine ⟨rfl, ?_⟩
  exact (call_parallel_contract
    (fun i p => if i = 1 then .error (.backendError 500)
      else .ok { content := "ok", model := "m", temperature := p.2 })
    (fun i p => if i = 1 then .error (.backendError 500)
      else .ok { content := "ok", model := "m", temperature := p.2 })
    [("p", 0), ("p", 1), ("p", 2)]).2.1 1 ("p", 1) rfl

theorem retryGo_allfail {E A : Type} (retryable : E → Bool) (bd md eb : ℚ)
    (outcome : Nat → Except E A) (err : Nat → E) :
    ∀ (k attempt : Nat),
      (∀ i, attempt ≤ i → i ≤ attempt + k →
        outcome i = .error (err i) ∧ retryable (err i) = true) →
      retryGo retryable bd md eb outcome attempt k =
        (.error (err (attempt + k)), k + 1,
         (List.range k).map (fun j => backoffDelay bd md eb (attempt + j))) := by
  intro k
  induction k with
  | zero =>
    intro attempt h
    obtain ⟨h1, _⟩ := h attempt le_rfl (by omega)
    simp [retryGo, h1]
  | succ k ih =>
    intro attempt h
    obtain ⟨h1, h2⟩ := h attempt le_rfl (by omega)
    have hrec := ih (attempt + 1) (fun i hi1 hi2 => h i (by omega) (by omega))
    rw [retryGo, h1]
    simp only [h2, if_pos, hrec]
    simp only [Prod.mk.injEq]
    refine ⟨congrArg _ (congrArg _ (by omega)), trivial, ?_⟩
    rw [List.range_succ_eq_map, List.map_cons, List.map_map]
    refine congrArg₂ _ (congrArg _ (by omega)) ?_
    exact List.map_congr_left fun j _ => congrArg _ (by omega)

theorem retryGo_success {E A : Type} (retryable : E → Bool) (bd md eb : ℚ)
    (outcome : Nat → Except E A) :
    ∀ (k attempt j : Nat) (v : A), j ≤ k →
      outcome (attempt + j) = .ok v →
      (∀ i, attempt ≤ i → i < attempt + j →
        ∃ e, outcome i = .error e ∧ retryable e = true) →
      (retryGo retryable bd md eb outcome attempt k).1 = .ok v ∧
      (retryGo retryable bd md eb outcome attempt k).2.1 = j + 1 := by
  intro k
  induction k with
  | zero =>
    intro attempt j v hj hok _
    interval_cases j
    rw [Nat.add_zero] at hok
    simp [retryGo, hok]
  | succ k ih =>
    intro attempt j v hj hok hfail
    match j with
    | 0 =>
      rw [Nat.add_zero] at hok
      simp [retryGo, hok]
    | j + 1 =>
      obtain ⟨e, he, hre⟩ := hfail attempt le_rfl (by omega)
      have hrec := ih (attempt + 1) j v (by omega)
        (by rw [show attempt + 1 + j = attempt + (j + 1) by omega]; exact hok)
        (fun i hi1 hi2 => hfail i (by omega) (by omega))
      rw [retryGo, he]
      simp only [hre, if_pos]
      exact ⟨hrec.1, by rw [hrec.2]⟩

/-- C5: retry-with-backoff: an operation that always fails with a retryable
error is invoked exactly `max_retries + 1` times, the inter-attempt delays
are `min(base_delay * exponential_base ^ attempt, max_delay)` — a sequence
that is non-decreasing for `base_delay ≥ 0` and `exponential_base ≥ 1` and
capped by `max_delay` — and the final result is the error captured on the
last attempt, the identical error value, not a wrapped one; an operation
that succeeds on attempt `j` (after retryable failures) returns that value
after exactly `j + 1` invocations, with no further attempts. -/
theorem retry_with_backoff_contract {E A : Type} (mr : Nat) (bd md eb : ℚ)
    (retryable : E → Bool) (outcome : Nat → Except E A) (err : Nat → E) :
    ((∀ i, i ≤ mr → outcome i = .error (err i) ∧ retryable (err i) = true) →
      retry_with_backoff mr bd md eb retryable outcome =
        (.error (err mr), mr + 1,
         (List.range mr).map (backoffDelay bd md eb))) ∧
    (0 ≤ bd → 1 ≤ eb → ∀ i j, i ≤ j →
      backoffDelay bd md eb i ≤ backoffDelay bd md eb j) ∧
    (∀ i, backoffDelay bd md eb i ≤ md) ∧
    (∀ j v, j ≤ mr → outcome j = .ok v →
      (∀ i, i < j → ∃ e, outcome i = .error e ∧ retryable e = true) →
      (retry_with_backoff mr bd md eb retryable outcome).1 = .ok v ∧
      (retry_with_backoff mr bd md eb retryable outcome).2.1 = j + 1) := by
  refine ⟨?_, ?_, ?_, ?_⟩
  · intro h
    have := retryGo_allfail retryable bd md eb outcome err mr 0
      (fun i hi1 hi2 => h i (by omega))
    rw [retry_with_backoff, this]
    simp
  · intro hbd heb i j hij
    unfold backoffDelay
    refine min_le_min ?_ le_rfl
    exact mul_le_mul_of_nonneg_left (pow_le_pow_right₀ heb hij) hbd
  · intro i
    exact min_le_right _ _
  · intro j v hj hok hfail
    exact retryGo_success retryable bd md eb outcome mr 0 j v hj
      (by rw [Nat.zero_add]; exact hok)
      (fun i hi1 hi2 => hfail i (by omega))

/-- Witness for C5: an operation that always fails with (retryable) error 7
under `max_retries = 3` is invoked exactly 4 times, the delay before
attempt 2 is `min(1 * 2^2, 60) = 4`, and the final error is 7 itself. -/
theorem retry_with_backoff_contract_witness :
    (∀ i, i ≤ 3 → (fun _ => (.error 7 : Except Nat Nat)) i = .error ((fun _ => 7) i) ∧
      (fun (_ : Nat) => true) ((fun _ => (7 : Nat)) i) = true) ∧
    retry_with_backoff 3 1 60 2 (fun _ => true) (fun _ => (.error 7 : Except Nat Nat)) =
      (.error 7, 4, (List.range 3).map (backoffDelay 1 60 2)) ∧
    backoffDelay 1 60 2 2 = 4 := by
  refine ⟨fun i _ => ⟨rfl, rfl⟩, ?_, ?_⟩
  · exact (retry_with_backoff_contract 3 1 60 2 (fun _ => true)
      (fun _ => (.error 7 : Except Nat Nat)) (fun _ => 7)).1 (fun i _ => ⟨rfl, rfl⟩)
  · unfold backoffDelay
    norm_num

theorem findAvailable_eq_none_iff (ws : List SubprocessWorker) :
    findAvailable ws = none ↔ ∀ w ∈ ws, w.in_use = true ∨ w.alive = false := by
  induction ws with
  | nil => simp [findAvailable]
  | cons w rest ih =>
    unfold findAvailable
    by_cases hu : w.in_use = true
    · rw [if_neg (by simp [hu])]
      rw [Option.map_eq_none', ih]
      constructor
      · intro h x hx
        rcases List.mem_cons.mp hx with rfl | hx2
        · exact Or.inl hu
        · exact h x hx2
      · intro h x hx
        exact h x (List.mem_cons_of_mem _ hx)
    · by_cases ha : w.alive = true
      · rw [if_pos ⟨by simpa using hu, ha⟩]
        constructor
        · intro h; cases h
        · intro h
          exfalso
          rcases h w (List.mem_cons_self w rest) with h1 | h1
          · exact hu h1
          · rw [ha] at h1; cases h1
      · rw [if_neg (by simp [ha])]
        rw [Option.map_eq_none', ih]
        constructor
        · intro h x hx
          rcases List.mem_cons.mp hx with rfl | hx2
          · exact Or.inr (by simpa using ha)
          · exact h x hx2
        · intro h x hx
          exact h x (List.mem_cons_of_mem _ hx)

theorem findAvailable_some (ws : List SubprocessWorker) (i : Nat)
    (h : findAvailable ws = some i) :
    ∃ w, ws[i]? = some w ∧ w.in_use = false ∧ w.alive = true := by
  induction ws generalizing i with
  | nil => simp [findAvailable] at h
  | cons w rest ih =>
    unfold findAvailable at h
    by_cases hw : ¬ w.in_use = true ∧ w.alive = true
    · rw [if_pos hw] at h
      rcases Option.some.inj h with rfl
      exact ⟨w, by simp, by simpa using hw.1, hw.2⟩
    · rw [if_neg hw] at h
      rcases Option.map_eq_some'.mp h with ⟨j, hj, rfl⟩
      obtain ⟨x, hx1, hx2⟩ := ih j hj
      exact ⟨x, by simpa using hx1, hx2⟩

theorem markInUse_getElem? (ws : List SubprocessWorker) (i : Nat) (now : ℚ) :
    (markInUse ws i now)[i]? =
      ws[i]?.map (fun w => { w with in_use := true, last_used := now }) := by
  induction ws generalizing i with
  | nil => simp [markInUse]
  | cons w rest ih =>
    match i with
    | 0 => simp [markInUse]
    | i + 1 => simpa [markInUse] using ih i

theorem markFree_getElem? (ws : List SubprocessWorker) (i : Nat) (now : ℚ) :
    (markFree ws i now)[i]? =
      ws[i]?.map (fun w => { w with in_use := false, last_used := now }) := by
  induction ws generalizing i with
  | nil => simp [markFree]
  | cons w rest ih =>
    match i with
    | 0 => simp [markFree]
    | i + 1 => simpa [markFree] using ih i

/-- C7: worker-pool backpressure. An acquire that returns a worker marks it
in-use, and that worker's process has not exited; acquire returns absent
exactly when every existing worker is busy or dead and the pool is at
`max_workers`, in which case the pool is unchanged (and nothing is raised —
the operation is total); release marks the worker not in use with no
liveness check, so a subsequent acquire can return it. On a pool with
`max_workers = 2`: two acquisitions without release make a third acquire
return absent, and after one release the next acquire succeeds with a live
worker. -/
theorem subprocess_pool_backpressure (p : SubprocessPool) (now : ℚ) :
    (∀ i, (p.acquire now).1 = some i →
      ∃ w, (p.acquire now).2.workers[i]? = some w ∧
        w.in_use = true ∧ w.alive = true) ∧
    ((p.acquire now).1 = none ↔
      (∀ w ∈ p.workers, w.in_use = true ∨ w.alive = false) ∧
        p.max_workers ≤ p.workers.length) ∧
    ((p.acquire now).1 = none → (p.acquire now).2 = p) ∧
    (∀ i w now2, p.workers[i]? = some w →
      (p.release i now2).workers[i]? =
        some { w with in_use := false, last_used := now2 }) ∧
    (((({ max_workers := 2, workers := [] } : SubprocessPool).acquire 0).1 = some 0) ∧
     (((({ max_workers := 2, workers := [] } : SubprocessPool).acquire 0).2.acquire 1).1 = some 1) ∧
     ((((({ max_workers := 2, workers := [] } : SubprocessPool).acquire 0).2.acquire 1).2.acquire 2).1 = none) ∧
     ((((((({ max_workers := 2, workers := [] } : SubprocessPool).acquire 0).2.acquire 1).2.acquire 2).2.release 0 3).acquire 4).1 = some 0) ∧
     ((((((({ max_workers := 2, workers := [] } : SubprocessPool).acquire 0).2.acquire 1).2.acquire 2).2.release 0 3).acquire 4).2.workers[0]?.map SubprocessWorker.alive = some true)) := by
  refine ⟨?_, ?_, ?_, ?_, ?_⟩
  · intro i hi
    unfold SubprocessPool.acquire at hi ⊢
    cases hfa : findAvailable p.workers with
    | some j =>
      rw [hfa] at hi
      dsimp only at hi ⊢
      rcases Option.some.inj hi with rfl
      obtain ⟨w, hw1, hw2, hw3⟩ := findAvailable_some p.workers j hfa
      refine ⟨{ w with in_use := true, last_used := now }, ?_, rfl, hw3⟩
      rw [markInUse_getElem?, hw1]
      rfl
    | none =>
      rw [hfa] at hi
      dsimp only at hi ⊢
      by_cases hlen : p.workers.length < p.max_workers
      · rw [if_pos hlen] at hi ⊢
        dsimp only at hi ⊢
        rcases Option.some.inj hi with rfl
        exact ⟨{ alive := true, last_used := now, in_use := true },
               List.getElem?_concat_length _ _, rfl, rfl⟩
      · rw [if_neg hlen] at hi
        cases hi
  · unfold SubprocessPool.acquire
    cases hfa : findAvailable p.workers with
    | some j =>
      dsimp only
      constructor
      · intro h; cases h
      · intro h
        rw [(findAvailable_eq_none_iff p.workers).mpr h.1] at hfa
        cases hfa
    | none =>
      dsimp only
      by_cases hlen : p.workers.length < p.max_workers
      · rw [if_pos hlen]
        dsimp only
        constructor
        · intro h; cases h
        · intro h; omega
      · rw [if_neg hlen]
        exact ⟨fun _ => ⟨(findAvailable_eq_none_iff p.workers).mp hfa, by omega⟩,
               fun _ => rfl⟩
  · unfold SubprocessPool.acquire
    cases hfa : findAvailable p.workers with
    | some j => dsimp only; intro h; cases h
    | none =>
      dsimp only
      by_cases hlen : p.workers.length < p.max_workers
      · rw [if_pos hlen]; intro h; cases h
      · rw [if_neg hlen]; intro _; rfl
  · intro i w now2 hw
    unfold SubprocessPool.release
    dsimp only
    rw [markFree_getElem?, hw]
    rfl
  · exact ⟨rfl, rfl, rfl, rfl, rfl⟩

/-- Witness for C7: the release clause applied to a concrete one-worker
pool. -/
theorem subprocess_pool_backpressure_witness :
    (({ max_workers := 2,
        workers := [{ alive := true, last_used := 0, in_use := true }] } :
          SubprocessPool).workers[0]? =
      some { alive := true, last_used := 0, in_use := true }) ∧
    (({ max_workers := 2,
        workers := [{ alive := true, last_used := 0, in_use := true }] } :
          SubprocessPool).release 0 5).workers[0]? =
      some { alive := true, last_used := 5, in_use := false } :=
  ⟨rfl,
   (subprocess_pool_backpressure
      { max_workers := 2,
        workers := [{ alive := true, last_used := 0, in_use := true }] }
      0).2.2.2.1 0 { alive := true, last_used := 0, in_use := true } 5 rfl⟩

theorem strContains_consecutive_reason1 (n : Nat) :
    strContains "consecutive failures"
      ("Too many consecutive failures (" ++ natStr n ++ ")") := by
  apply strContains_append_right
  apply strContains_append_right
  exact ⟨"Too many ".data, " (".data, by decide⟩

theorem strContains_not_in_reason3 (q : ℚ) :
    ¬ strContains "consecutive failures"
      ("Success rate too low (" ++ fmtPercent q ++ ")") := by
  refine @not_strContains_of_mem _ _ 'v' (by decide) ?_
  intro hv
  rw [str_data_append, str_data_append] at hv
  rcases List.mem_append.mp hv with hv1 | hv1
  · rcases List.mem_append.mp hv1 with hv2 | hv2
    · revert hv2; decide
    · exact v_not_mem_fmtPercent q hv2
  · revert hv1; decide

theorem recordList_append (hashFn : String → String) (h : TerminationHeuristics)
    (l1 l2 : List (String × Bool)) :
    recordList hashFn h (l1 ++ l2) = recordList hashFn (recordList hashFn h l1) l2 := by
  induction l1 generalizing h with
  | nil => rfl
  | cons a rest ih => simp [recordList, ih]

theorem recordList_fail_stats (hashFn : String → String) (d : Nat → String)
    (h0 : TerminationHeuristics) (k : Nat) :
    (recordList hashFn h0 (failAttempts d k)).total_attempts = h0.total_attempts + k ∧
    (recordList hashFn h0 (failAttempts d k)).successful_attempts = h0.successful_attempts ∧
    (recordList hashFn h0 (failAttempts d k)).consecutive_failures = h0.consecutive_failures + k ∧
    (recordList hashFn h0 (failAttempts d k)).min_steps = h0.min_steps ∧
    (recordList hashFn h0 (failAttempts d k)).max_consecutive_failures = h0.max_consecutive_failures ∧
    (recordList hashFn h0 (failAttempts d k)).max_similar_patches = h0.max_similar_patches ∧
    (recordList hashFn h0 (failAttempts d k)).min_success_rate = h0.min_success_rate := by
  induction k with
  | zero => simp [failAttempts, recordList]
  | succ k ih =>
    obtain ⟨iT, iS, iC, iMS, iMC, iMSP, iR⟩ := ih
    have hsplit : failAttempts d (k + 1) = failAttempts d k ++ [(d k, false)] := by
      unfold failAttempts
      rw [List.range_succ, List.map_append]
      rfl
    rw [hsplit, recordList_append]
    refine ⟨?_, ?_, ?_, ?_, ?_, ?_, ?_⟩
    · have h1 : (recordList hashFn (recordList hashFn h0 (failAttempts d k))
          [(d k, false)]).total_attempts =
          (recordList hashFn h0 (failAttempts d k)).total_attempts + 1 := rfl
      omega
    · have h1 : (recordList hashFn (recordList hashFn h0 (failAttempts d k))
          [(d k, false)]).successful_attempts =
          (recordList hashFn h0 (failAttempts d k)).successful_attempts := rfl
      rw [h1, iS]
    · have h1 : (recordList hashFn (recordList hashFn h0 (failAttempts d k))
          [(d k, false)]).consecutive_failures =
          (recordList hashFn h0 (failAttempts d k)).consecutive_failures + 1 := rfl
      omega
    · exact iMS
    · exact iMC
    · exact iMSP
    · exact iR

/-- C4 (amended): the termination-heuristics reference definition.
`record_attempt` increments `total_attempts`, on success increments
`successful_attempts` and resets `consecutive_failures`, on failure
increments `consecutive_failures`, and always appends the (truncated) patch
hash to the 20-slot ring buffer. `should_terminate` evaluates in fixed
priority order, first true wins: (1) `consecutive_failures ≥
max_consecutive_failures`, reason containing "consecutive failures"; (2)
the buffer holds at least `max_similar_patches` entries and the most recent
`max_similar_patches` hashes are all identical, reason "Repeated identical
patches" (capitalized as in the source; fewer entries never trigger this
rule); (3) `total_attempts ≥ min_steps` and success rate strictly below
`min_success_rate`, reason containing the formatted rate; otherwise no
termination. From a fresh state with `min_steps ≥ 1`, a run of `k`
sequential failing attempts makes `should_terminate` return true with a
reason containing "consecutive failures" exactly when
`k ≥ max_consecutive_failures`. -/
theorem termination_heuristics_spec (hashFn : String → String) :
    (∀ (h : TerminationHeuristics) (diff : String) (success : Bool),
      (h.record_attempt hashFn diff success).total_attempts = h.total_attempts + 1 ∧
      (success = true →
        (h.record_attempt hashFn diff success).successful_attempts = h.successful_attempts + 1 ∧
        (h.record_attempt hashFn diff success).consecutive_failures = 0) ∧
      (success = false →
        (h.record_attempt hashFn diff success).consecutive_failures = h.consecutive_failures + 1 ∧
        (h.record_attempt hashFn diff success).successful_attempts = h.successful_attempts) ∧
      (h.record_attempt hashFn diff success).patch_hashes =
        pushRing 20 h.patch_hashes (hashFn diff) ∧
      (h.record_attempt hashFn diff success).patch_hashes.length ≤ 20) ∧
    (∀ h : TerminationHeuristics,
      (h.max_consecutive_failures ≤ h.consecutive_failures →
        h.should_terminate.1 = true ∧
        strContains "consecutive failures" h.should_terminate.2) ∧
      (h.consecutive_failures < h.max_consecutive_failures →
        h.max_similar_patches ≤ h.patch_hashes.length ∧
          allEqOne (pySliceLast h.patch_hashes h.max_similar_patches) = true →
        h.should_terminate = (true, "Repeated identical patches")) ∧
      (h.consecutive_failures < h.max_consecutive_failures →
        ¬ (h.max_similar_patches ≤ h.patch_hashes.length ∧
            allEqOne (pySliceLast h.patch_hashes h.max_similar_patches) = true) →
        h.min_steps ≤ h.total_attempts →
        (h.successful_attempts : ℚ) / (h.total_attempts : ℚ) < h.min_success_rate →
        h.should_terminate.1 = true ∧
        strContains
          (fmtPercent ((h.successful_attempts : ℚ) / (h.total_attempts : ℚ)))
          h.should_terminate.2) ∧
      (h.consecutive_failures < h.max_consecutive_failures →
        ¬ (h.max_similar_patches ≤ h.patch_hashes.length ∧
            allEqOne (pySliceLast h.patch_hashes h.max_similar_patches) = true) →
        ¬ (h.min_steps ≤ h.total_attempts ∧
            (h.successful_attempts : ℚ) / (h.total_attempts : ℚ) < h.min_success_rate) →
        h.should_terminate = (false, ""))) ∧
    (∀ (ms mc msp : Nat) (rate : ℚ) (d : Nat → String) (k : Nat), 1 ≤ ms →
      (((recordList hashFn
          { min_steps := ms, max_consecutive_failures := mc,
            max_similar_patches := msp, min_success_rate := rate }
          (failAttempts d k)).should_terminate.1 = true ∧
        strContains "consecutive failures"
          (recordList hashFn
            { min_steps := ms, max_consecutive_failures := mc,
              max_similar_patches := msp, min_success_rate := rate }
            (failAttempts d k)).should_terminate.2) ↔ mc ≤ k)) := by
  refine ⟨?_, ?_, ?_⟩
  · intro h diff success
    cases success with
    | true =>
      refine ⟨rfl, fun _ => ⟨rfl, rfl⟩, fun hf => absurd hf (by decide), rfl, ?_⟩
      show (pushRing 20 h.patch_hashes (hashFn diff)).length ≤ 20
      simp only [pushRing, List.length_drop, List.length_append, List.length_singleton]
      omega
    | false =>
      refine ⟨rfl, fun ht => absurd ht (by decide), fun _ => ⟨rfl, rfl⟩, rfl, ?_⟩
      show (pushRing 20 h.patch_hashes (hashFn diff)).length ≤ 20
      simp only [pushRing, List.length_drop, List.length_append, List.length_singleton]
      omega
  · intro h
    refine ⟨?_, ?_, ?_, ?_⟩
    · intro h1
      unfold TerminationHeuristics.should_terminate
      rw [if_pos h1]
      exact ⟨rfl, strContains_consecutive_reason1 _⟩
    · intro h1 h2
      unfold TerminationHeuristics.should_terminate
      rw [if_neg (by omega), if_pos h2]
    · intro h1 h2 h3 h4
      unfold TerminationHeuristics.should_terminate
      rw [if_neg (by omega), if_neg h2, if_pos ⟨h3, h4⟩]
      exact ⟨rfl, by
        apply strContains_append_right
        apply strContains_append_left
        exact ⟨[], [], by simp⟩⟩
    · intro h1 h2 h3
      unfold TerminationHeuristics.should_terminate
      rw [if_neg (by omega), if_neg h2, if_neg h3]
  · intro ms mc msp rate d k hms
    obtain ⟨hT, hS, hC, hMS, hMC, hMSP, hR⟩ :=
      recordList_fail_stats hashFn d
        { min_steps := ms, max_consecutive_failures := mc,
          max_similar_patches := msp, min_success_rate := rate } k
    generalize hst : recordList hashFn
        { min_steps := ms, max_consecutive_failures := mc,
          max_similar_patches := msp, min_success_rate := rate }
        (failAttempts d k) = st at hT hS hC hMS hMC hMSP hR ⊢
    constructor
    · intro hpair
      obtain ⟨hterm, hcontains⟩ := hpair
      by_contra hk
      unfold TerminationHeuristics.should_terminate at hterm hcontains
      rw [if_neg (by rw [hC, hMC]; dsimp only; omega)] at hterm hcontains
      by_cases h2 : st.max_similar_patches ≤ st.patch_hashes.length ∧
          allEqOne (pySliceLast st.patch_hashes st.max_similar_patches) = true
      · rw [if_pos h2] at hcontains
        revert hcontains
        decide
      · rw [if_neg h2] at hterm hcontains
        by_cases h3 : st.min_steps ≤ st.total_attempts ∧
            (st.successful_attempts : ℚ) / (st.total_attempts : ℚ) < st.min_success_rate
        · rw [if_pos h3] at hcontains
          exact strContains_not_in_reason3 _ hcontains
        · rw [if_neg h3] at hterm
          simp at hterm
    · intro hk
      unfold TerminationHeuristics.should_terminate
      rw [if_pos (by rw [hC, hMC]; dsimp only; omega)]
      exact ⟨rfl, strContains_consecutive_reason1 _⟩

/-- Witness for C4 (amended): five failing attempts from a fresh state with
the default configuration trip the consecutive-failures rule. -/
theorem termination_heuristics_spec_witness :
    (1 ≤ 3) ∧
    (((recordList (fun s => s)
        { min_steps := 3, max_consecutive_failures := 5,
          max_similar_patches := 3, min_success_rate := 1 / 20 }
        (failAttempts (fun _ => "x") 5)).should_terminate.1 = true ∧
      strContains "consecutive failures"
        (recordList (fun s => s)
          { min_steps := 3, max_consecutive_failures := 5,
            max_similar_patches := 3, min_success_rate := 1 / 20 }
          (failAttempts (fun _ => "x") 5)).should_terminate.2) ↔ 5 ≤ 5) :=
  ⟨by norm_num,
   (termination_heuristics_spec (fun s => s)).2.2 3 5 3 (1 / 20)
     (fun _ => "x") 5 (by norm_num)⟩

/-- C4 counterexample: three identical successful attempts from a fresh
default state trip the repeated-patches rule, and the reason string the
source returns is "Repeated identical patches" — it neither equals nor
contains the claim's lowercase "repeated identical patches". -/
theorem termination_reason_counterexample :
    (recordList (fun s => s) {} [("x", true), ("x", true), ("x", true)]).should_terminate =
      (true, "Repeated identical patches") ∧
    ¬ strContains "repeated identical patches" "Repeated identical patches" ∧
    "Repeated identical patches" ≠ "repeated identical patches" := by
  refine ⟨?_, by decide, by decide⟩
  rfl

theorem memoLookup_erase_self {V : Type} (c : MemoCache V) (k : String) :
    memoLookup (memoErase c k) k = none := by
  unfold memoLookup memoErase
  rw [Option.map_eq_none']
  rw [List.find?_eq_none]
  intro x hx
  have hkeep := (List.mem_filter.mp hx).2
  simp only [bne_iff_ne, ne_eq] at hkeep
  simpa using hkeep

theorem memoLookup_none_of_sublist {V : Type} {c1 c2 : MemoCache V} {k : String}
    (h : c2.Sublist c1) (hk : memoLookup c1 k = none) : memoLookup c2 k = none := by
  unfold memoLookup at hk ⊢
  rw [Option.map_eq_none'] at hk ⊢
  rw [List.find?_eq_none] at hk ⊢
  exact fun x hx => hk x (h.subset hx)

theorem memoInsert_of_lookup_none {V : Type} (c : MemoCache V) (k : String)
    (ts : ℚ) (v : V) (h : memoLookup c k = none) :
    memoInsert c k ts v = c ++ [(k, ts, v)] := by
  unfold memoInsert
  unfold memoLookup at h
  rw [Option.map_eq_none'] at h
  rw [h]
  rfl

theorem memoLookup_append_self {V : Type} (c : MemoCache V) (k : String)
    (ts : ℚ) (v : V) (h : memoLookup c k = none) :
    memoLookup (c ++ [(k, ts, v)]) k = some (ts, v) := by
  unfold memoLookup at h ⊢
  rw [Option.map_eq_none'] at h
  rw [List.find?_append, h]
  simp

theorem memoEvictOldest_spec {V : Type} (c : MemoCache V) (hne : c ≠ []) :
    ∃ pre x post, c = pre ++ x :: post ∧ (∀ y ∈ c, x.2.1 ≤ y.2.1) ∧
      memoEvictOldest c = pre ++ post := by
  unfold memoEvictOldest
  cases hmin : (c.map (fun e => e.2.1)).min? with
  | none =>
    exfalso
    rw [List.min?_eq_none_iff, List.map_eq_nil_iff] at hmin
    exact hne hmin
  | some m =>
    have hmem : m ∈ c.map (fun e => e.2.1) :=
      List.min?_mem (fun a b => min_choice a b) hmin
    have hle : ∀ b ∈ c.map (fun e => e.2.1), m ≤ b :=
      (List.le_min?_iff (fun a b c => le_min_iff) hmin).mp (le_refl m)
    obtain ⟨e, he, hets⟩ := List.mem_map.mp hmem
    obtain ⟨x, l1, l2, hl1, hpx, hdecomp, herase⟩ :=
      @List.exists_of_eraseP _ (fun e => decide (e.2.1 = m)) c e he (decide_eq_true hets)
    refine ⟨l1, x, l2, hdecomp, ?_, herase⟩
    intro y hy
    have hxm : x.2.1 = m := by simpa using hpx
    rw [hxm]
    exact hle _ (List.mem_map.mpr ⟨y, hy, rfl⟩)

theorem memoEvictOldest_length {V : Type} (c : MemoCache V) (hne : c ≠ []) :
    (memoEvictOldest c).length + 1 = c.length := by
  obtain ⟨pre, x, post, hdecomp, _, herase⟩ := memoEvictOldest_spec c hne
  rw [herase, hdecomp]
  simp only [List.length_append, List.length_cons]
  omega

theorem memoEvictOldest_sublist {V : Type} (c : MemoCache V) :
    (memoEvictOldest c).Sublist c := by
  unfold memoEvictOldest
  cases (c.map (fun e => e.2.1)).min? with
  | none => exact List.Sublist.refl c
  | some m => exact List.eraseP_sublist c

/-- C6: TTL memoization: a hit younger than `ttl_seconds` returns the cached
value without re-invoking the wrapped function and leaves the cache
untouched; an expired hit deletes the stale entry, re-invokes, and stores
the freshly computed value at the current time; the cache never grows past
`maxsize`; and when an insert of a new key would make it exceed `maxsize`,
exactly one entry — the oldest by insertion timestamp — is evicted before
the new entry is appended. -/
theorem memoize_with_ttl_contract {α V : Type} (keyOf : α → String) (f : α → V)
    (ttl : ℚ) (maxsize : Nat) (now : ℚ) (cache : MemoCache V) (a : α) :
    (∀ ts v, memoLookup cache (keyOf a) = some (ts, v) → now - ts < ttl →
      memoize_with_ttl_step keyOf f ttl maxsize now cache a = (v, cache, false)) ∧
    (∀ ts v, memoLookup cache (keyOf a) = some (ts, v) → ttl ≤ now - ts →
      (memoize_with_ttl_step keyOf f ttl maxsize now cache a).2.2 = true ∧
      (memoize_with_ttl_step keyOf f ttl maxsize now cache a).1 = f a ∧
      memoLookup (memoize_with_ttl_step keyOf f ttl maxsize now cache a).2.1
        (keyOf a) = some (now, f a)) ∧
    (1 ≤ maxsize → cache.length ≤ maxsize →
      (memoize_with_ttl_step keyOf f ttl maxsize now cache a).2.1.length ≤ maxsize) ∧
    (1 ≤ maxsize → maxsize ≤ cache.length →
      memoLookup cache (keyOf a) = none →
      ∃ pre x post, cache = pre ++ x :: post ∧ (∀ y ∈ cache, x.2.1 ≤ y.2.1) ∧
        (memoize_with_ttl_step keyOf f ttl maxsize now cache a).2.1 =
          (pre ++ post) ++ [(keyOf a, now, f a)] ∧
        (memoize_with_ttl_step keyOf f ttl maxsize now cache a).2.1.length =
          cache.length) := by
  refine ⟨?_, ?_, ?_, ?_⟩
  · intro ts v hlk hfresh
    unfold memoize_with_ttl_step
    dsimp only
    rw [hlk]
    dsimp only
    rw [if_pos hfresh]
  · intro ts v hlk hexp
    unfold memoize_with_ttl_step
    dsimp only
    rw [hlk]
    dsimp only
    rw [if_neg (not_lt.mpr hexp)]
    refine ⟨rfl, rfl, ?_⟩
    have hc1 : memoLookup (memoErase cache (keyOf a)) (keyOf a) = none :=
      memoLookup_erase_self cache (keyOf a)
    have hc2 : memoLookup
        (if maxsize ≤ (memoErase cache (keyOf a)).length then
          memoEvictOldest (memoErase cache (keyOf a))
        else memoErase cache (keyOf a)) (keyOf a) = none := by
      by_cases hcase : maxsize ≤ (memoErase cache (keyOf a)).length
      · rw [if_pos hcase]
        exact memoLookup_none_of_sublist (memoEvictOldest_sublist _) hc1
      · rw [if_neg hcase]
        exact hc1
    rw [memoInsert_of_lookup_none _ _ _ _ hc2]
    exact memoLookup_append_self _ _ _ _ hc2
  · intro hmax hlen
    unfold memoize_with_ttl_step
    dsimp only
    cases hlk : memoLookup cache (keyOf a) with
    | some tv =>
      dsimp only
      by_cases hfresh : now - tv.1 < ttl
      · rw [if_pos hfresh]
        exact hlen
      · rw [if_neg hfresh]
        have hc1 : memoLookup (memoErase cache (keyOf a)) (keyOf a) = none :=
          memoLookup_erase_self cache (keyOf a)
        have hc1len : (memoErase cache (keyOf a)).length ≤ cache.length :=
          (List.filter_sublist cache).length_le
        by_cases hcase : maxsize ≤ (memoErase cache (keyOf a)).length
        · rw [if_pos hcase]
          have hne : memoErase cache (keyOf a) ≠ [] := by
            intro hnil
            have h0 : (memoErase cache (keyOf a)).length = 0 := by rw [hnil]; rfl
            omega
          have hev := memoEvictOldest_length (memoErase cache (keyOf a)) hne
          have hc2 : memoLookup (memoEvictOldest (memoErase cache (keyOf a)))
              (keyOf a) = none :=
            memoLookup_none_of_sublist (memoEvictOldest_sublist _) hc1
          rw [memoInsert_of_lookup_none _ _ _ _ hc2]
          rw [List.length_append]
          simp only [List.length_cons, List.length_nil]
          omega
        · rw [if_neg hcase]
          rw [memoInsert_of_lookup_none _ _ _ _ hc1]
          rw [List.length_append]
          simp only [List.length_cons, List.length_nil]
          omega
    | none =>
      dsimp only
      by_cases hcase : maxsize ≤ cache.length
      · rw [if_pos hcase]
        have hne : cache ≠ [] := by
          intro hnil
          have h0 : cache.length = 0 := by rw [hnil]; rfl
          omega
        have hev := memoEvictOldest_length cache hne
        have hc2 : memoLookup (memoEvictOldest cache) (keyOf a) = none :=
          memoLookup_none_of_sublist (memoEvictOldest_sublist _) hlk
        rw [memoInsert_of_lookup_none _ _ _ _ hc2]
        rw [List.length_append]
        simp only [List.length_cons, List.length_nil]
        omega
      · rw [if_neg hcase]
        rw [memoInsert_of_lookup_none _ _ _ _ hlk]
        rw [List.length_append]
        simp only [List.length_cons, List.length_nil]
        omega
  · intro hmax hfull hlk
    have hne : cache ≠ [] := by
      intro hnil
      have h0 : cache.length = 0 := by rw [hnil]; rfl
      omega
    obtain ⟨pre, x, post, hdecomp, hmin, herase⟩ := memoEvictOldest_spec cache hne
    refine ⟨pre, x, post, hdecomp, hmin, ?_, ?_⟩
    · unfold memoize_with_ttl_step
      dsimp only
      rw [hlk]
      dsimp only
      rw [if_pos hfull]
      have hc2 : memoLookup (memoEvictOldest cache) (keyOf a) = none :=
        memoLookup_none_of_sublist (memoEvictOldest_sublist _) hlk
      rw [memoInsert_of_lookup_none _ _ _ _ hc2, herase]
    · unfold memoize_with_ttl_step
      dsimp only
      rw [hlk]
      dsimp only
      rw [if_pos hfull]
      have hc2 : memoLookup (memoEvictOldest cache) (keyOf a) = none :=
        memoLookup_none_of_sublist (memoEvictOldest_sublist _) hlk
      rw [memoInsert_of_lookup_none _ _ _ _ hc2]
      have hev := memoEvictOldest_length cache hne
      rw [List.length_append]
      simp only [List.length_cons, List.length_nil]
      omega

/-- Witness for C6: inserting a third key into a full two-entry cache evicts
the single oldest entry. -/
theorem memoize_with_ttl_contract_witness :
    ((1 : Nat) ≤ 2 ∧ ([("a", (0 : ℚ), (1 : Nat)), ("b", 1, 2)] : MemoCache Nat).length = 2 ∧
      memoLookup ([("a", (0 : ℚ), (1 : Nat)), ("b", 1, 2)] : MemoCache Nat) "c" = none) ∧
    (∃ pre x post,
      ([("a", (0 : ℚ), (1 : Nat)), ("b", 1, 2)] : MemoCache Nat) = pre ++ x :: post ∧
      (∀ y ∈ ([("a", (0 : ℚ), (1 : Nat)), ("b", 1, 2)] : MemoCache Nat), x.2.1 ≤ y.2.1) ∧
      (memoize_with_ttl_step (fun s => s) String.length 10 2 5
        [("a", 0, 1), ("b", 1, 2)] "c").2.1 = (pre ++ post) ++ [("c", 5, "c".length)] ∧
      (memoize_with_ttl_step (fun s => s) String.length 10 2 5
        [("a", 0, 1), ("b", 1, 2)] "c").2.1.length = 2) := by
  refine ⟨⟨by norm_num, rfl, by decide⟩, ?_⟩
  have h := (memoize_with_ttl_contract (fun s => s) String.length 10 2 5
    [("a", 0, 1), ("b", 1, 2)] "c").2.2.2 (by norm_num) (by norm_num) (by decide)
  exact h

theorem rowLE_trans : ∀ a b c : CacheRow,
    rowLE a b = true → rowLE b c = true → rowLE a c = true := by
  intro a b c hab hbc
  unfold rowLE at hab hbc ⊢
  rw [decide_eq_true_eq] at hab hbc ⊢
  exact le_trans hab hbc

theorem rowLE_total : ∀ a b : CacheRow, (rowLE a b || rowLE b a) = true := by
  intro a b
  unfold rowLE
  rw [Bool.or_eq_true, decide_eq_true_eq, decide_eq_true_eq]
  exact le_total _ _

theorem set_connOpen (hp : String → String → ℚ → String) (c : LLMCache) (now : ℚ)
    (prompt modelName : String) (temperature : ℚ) (response : String) :
    (c.set hp now prompt modelName temperature response).connOpen = c.connOpen := by
  unfold LLMCache.set LLMCache.cleanup
  split
  · rfl
  · dsimp only
    split
    · rfl
    · rfl

theorem set_rows_eq (hp : String → String → ℚ → String) (c : LLMCache) (now : ℚ)
    (prompt modelName : String) (temperature : ℚ) (response : String)
    (hopen : c.connOpen = true) :
    (c.set hp now prompt modelName temperature response).rows =
      if c.maxEntries < (liveRows hp c now prompt modelName temperature response).length then
        ((liveRows hp c now prompt modelName temperature response).mergeSort rowLE).drop
          ((liveRows hp c now prompt modelName temperature response).length - c.maxEntries)
      else liveRows hp c now prompt modelName temperature response := by
  unfold LLMCache.set LLMCache.cleanup liveRows
  dsimp only
  rw [if_neg (not_not_intro hopen), if_neg (not_not_intro hopen)]
  rw [apply_ite LLMCache.rows]

theorem upsert_key_unique (hp : String → String → ℚ → String) (c : LLMCache)
    (now : ℚ) (prompt modelName : String) (temperature : ℚ) (response : String) :
    ∀ x ∈ upsertRows hp c now prompt modelName temperature response,
      x.promptHash = hp prompt modelName temperature →
      x = newCacheRow hp now prompt modelName temperature response := by
  intro x hx hxh
  rcases List.mem_append.mp hx with hx1 | hx1
  · exfalso
    have hb := (List.mem_filter.mp hx1).2
    rw [bne_iff_ne] at hb
    exact hb hxh
  · exact List.mem_singleton.mp hx1

theorem set_rows_key_unique (hp : String → String → ℚ → String) (c : LLMCache)
    (now : ℚ) (prompt modelName : String) (temperature : ℚ) (response : String)
    (hopen : c.connOpen = true) (hage : 0 ≤ c.maxAgeHours) (hmax : 1 ≤ c.maxEntries)
    (hfresh : ∀ r ∈ c.rows, r.createdAt < now) :
    newCacheRow hp now prompt modelName temperature response ∈
      (c.set hp now prompt modelName temperature response).rows ∧
    ∀ x ∈ (c.set hp now prompt modelName temperature response).rows,
      x.promptHash = hp prompt modelName temperature →
      x = newCacheRow hp now prompt modelName temperature response := by
  have hLsub : ∀ x ∈ liveRows hp c now prompt modelName temperature response,
      x ∈ upsertRows hp c now prompt modelName temperature response :=
    fun x hx => (List.mem_filter.mp hx).1
  have hnewL : newCacheRow hp now prompt modelName temperature response ∈
      liveRows hp c now prompt modelName temperature response := by
    refine List.mem_filter.mpr ⟨?_, ?_⟩
    · exact List.mem_append.mpr (Or.inr (List.mem_singleton_self _))
    · refine decide_eq_true ?_
      show now - c.maxAgeHours * 3600 ≤ now
      have h0 : (0 : ℚ) ≤ c.maxAgeHours * 3600 := mul_nonneg hage (by norm_num)
      linarith
  have hLold : ∀ x ∈ liveRows hp c now prompt modelName temperature response,
      x ≠ newCacheRow hp now prompt modelName temperature response →
      x.createdAt < now := by
    intro x hx hne
    rcases List.mem_append.mp (hLsub x hx) with hx1 | hx1
    · exact hfresh x (List.mem_filter.mp hx1).1
    · exact absurd (List.mem_singleton.mp hx1) hne
  rw [set_rows_eq hp c now prompt modelName temperature response hopen]
  by_cases hlt : c.maxEntries <
      (liveRows hp c now prompt modelName temperature response).length
  · rw [if_pos hlt]
    have hperm := List.mergeSort_perm
      (liveRows hp c now prompt modelName temperature response) rowLE
    have hsorted := List.sorted_mergeSort rowLE_trans rowLE_total
      (liveRows hp c now prompt modelName temperature response)
    constructor
    · by_contra hnot
      have hnewSorted : newCacheRow hp now prompt modelName temperature response ∈
          (liveRows hp c now prompt modelName temperature response).mergeSort rowLE :=
        List.mem_mergeSort.mpr hnewL
      rw [← List.take_append_drop
        ((liveRows hp c now prompt modelName temperature response).length - c.maxEntries)
        ((liveRows hp c now prompt modelName temperature response).mergeSort rowLE)]
        at hnewSorted hsorted
      rcases List.mem_append.mp hnewSorted with htake | hdrop
      · have hdlen : (((liveRows hp c now prompt modelName temperature response).mergeSort
            rowLE).drop
            ((liveRows hp c now prompt modelName temperature response).length -
              c.maxEntries)).length = c.maxEntries := by
          rw [List.length_drop, List.length_mergeSort]
          omega
        have hpos : 0 < (((liveRows hp c now prompt modelName temperature
            response).mergeSort rowLE).drop
            ((liveRows hp c now prompt modelName temperature response).length -
              c.maxEntries)).length := by omega
        obtain ⟨y, hy⟩ := List.exists_mem_of_length_pos hpos
        have hrel := (List.pairwise_append.mp hsorted).2.2 _ htake y hy
        have hle : (newCacheRow hp now prompt modelName temperature
            response).createdAt ≤ y.createdAt := by
          unfold rowLE at hrel
          exact of_decide_eq_true hrel
        have hyL : y ∈ liveRows hp c now prompt modelName temperature response :=
          List.mem_mergeSort.mp (List.drop_subset _ _ hy)
        have hyne : y ≠ newCacheRow hp now prompt modelName temperature response :=
          fun hEq => hnot (hEq ▸ hy)
        have hylt := hLold y hyL hyne
        have hnc : (newCacheRow hp now prompt modelName temperature
            response).createdAt = now := rfl
        rw [hnc] at hle
        linarith
      · exact hnot hdrop
    · intro x hx hxh
      exact upsert_key_unique hp c now prompt modelName temperature response x
        (hLsub x (List.mem_mergeSort.mp (List.drop_subset _ _ hx))) hxh
  · rw [if_neg hlt]
    exact ⟨hnewL, fun x hx hxh =>
      upsert_key_unique hp c now prompt modelName temperature response x
        (hLsub x hx) hxh⟩

/-- C1: response-cache round-trip: for every `(model, temperature, prompt)`
and response content, on an open cache with a sane configuration
(`max_age_hours ≥ 0`, `max_entries ≥ 1`) whose existing rows were created
strictly before `now`, a `set` followed immediately by a `get` with
identical arguments returns a response whose content is the stored content
and whose `cached` flag is true. -/
theorem llm_cache_roundtrip (hp : String → String → ℚ → String) (c : LLMCache)
    (now : ℚ) (prompt modelName : String) (temperature : ℚ) (response : String)
    (hopen : c.connOpen = true) (hage : 0 ≤ c.maxAgeHours) (hmax : 1 ≤ c.maxEntries)
    (hfresh : ∀ r ∈ c.rows, r.createdAt < now) :
    ∃ resp, ((c.set hp now prompt modelName temperature response).get hp now
        prompt modelName temperature).1 = some resp ∧
      resp.content = response ∧ resp.cached = true ∧
      resp.model = modelName ∧ resp.temperature = temperature := by
  obtain ⟨hmem, huniq⟩ := set_rows_key_unique hp c now prompt modelName temperature
    response hopen hage hmax hfresh
  have hfind : (c.set hp now prompt modelName temperature response).rows.find?
      (fun x => x.promptHash == hp prompt modelName temperature) =
      some (newCacheRow hp now prompt modelName temperature response) := by
    refine find?_eq_some_of_unique hmem ?_ ?_
    · exact beq_iff_eq.mpr rfl
    · intro x hx hpx
      exact huniq x hx (beq_iff_eq.mp hpx)
  unfold LLMCache.get
  rw [if_neg (not_not_intro (by
    rw [set_connOpen hp c now prompt modelName temperature response]
    exact hopen))]
  dsimp only
  rw [hfind]
  dsimp only
  rw [if_neg (by
    show ¬ ((c.set hp now prompt modelName temperature response).maxAgeHours <
      (now - now) / 3600)
    rw [sub_self, zero_div]
    refine not_lt.mpr ?_
    have hma : (c.set hp now prompt modelName temperature response).maxAgeHours =
        c.maxAgeHours := by
      unfold LLMCache.set LLMCache.cleanup
      split
      · rfl
      · dsimp only
        split
        · rfl
        · rfl
    rw [hma]
    exact hage)]
  exact ⟨_, rfl, rfl, rfl, rfl, rfl⟩

/-- Witness for C1: an empty open cache with the default configuration. -/
theorem llm_cache_roundtrip_witness :
    (emptyCache.connOpen = true ∧
      (0 : ℚ) ≤ emptyCache.maxAgeHours ∧ 1 ≤ emptyCache.maxEntries ∧
      (∀ r ∈ emptyCache.rows, r.createdAt < (5 : ℚ))) ∧
    ∃ resp, ((emptyCache.set (fun p m _ => p ++ m) 5 "prompt" "model"
        0 "resp").get (fun p m _ => p ++ m) 5 "prompt" "model" 0).1 = some resp ∧
      resp.content = "resp" ∧ resp.cached = true ∧
      resp.model = "model" ∧ resp.temperature = 0 := by
  refine ⟨⟨rfl, by norm_num [emptyCache], by norm_num [emptyCache],
    fun r hr => absurd hr (by simp [emptyCache])⟩, ?_⟩
  exact llm_cache_roundtrip (fun p m _ => p ++ m) emptyCache
    5 "prompt" "model" 0 "resp" rfl (by norm_num [emptyCache])
    (by norm_num [emptyCache]) (fun r hr => absurd hr (by simp [emptyCache]))

/-- C2: response-cache eviction policy. A `get` on an entry whose age
strictly exceeds `max_age_hours` returns absent and deletes that entry as a
side effect. After every `set` on an open cache: every surviving row is
within the age bound; if the janitor's age pass leaves at most
`max_entries` rows they all survive; and if it leaves more, exactly
`max_entries` rows survive and the deleted rows are all no newer (by
`created_at`) than every surviving row — the oldest are deleted and the
most recently created remain. -/
theorem llm_cache_eviction (hp : String → String → ℚ → String) (c : LLMCache)
    (now : ℚ) (prompt modelName : String) (temperature : ℚ) (response : String)
    (hopen : c.connOpen = true) :
    (∀ r, c.rows.find?
        (fun x => x.promptHash == hp prompt modelName temperature) = some r →
      c.maxAgeHours < (now - r.createdAt) / 3600 →
      (c.get hp now prompt modelName temperature).1 = none ∧
      ∀ x ∈ (c.get hp now prompt modelName temperature).2.rows,
        x.promptHash ≠ hp prompt modelName temperature) ∧
    (∀ r ∈ (c.set hp now prompt modelName temperature response).rows,
      now - c.maxAgeHours * 3600 ≤ r.createdAt) ∧
    ((liveRows hp c now prompt modelName temperature response).length ≤ c.maxEntries →
      (c.set hp now prompt modelName temperature response).rows =
        liveRows hp c now prompt modelName temperature response) ∧
    (c.maxEntries < (liveRows hp c now prompt modelName temperature response).length →
      (c.set hp now prompt modelName temperature response).rows.length = c.maxEntries ∧
      ∃ removed,
        (liveRows hp c now prompt modelName temperature response).Perm
          (removed ++ (c.set hp now prompt modelName temperature response).rows) ∧
        ∀ d ∈ removed,
          ∀ k ∈ (c.set hp now prompt modelName temperature response).rows,
            d.createdAt ≤ k.createdAt) := by
  refine ⟨?_, ?_, ?_, ?_⟩
  · intro r hr hexp
    unfold LLMCache.get
    rw [if_neg (not_not_intro hopen)]
    dsimp only
    rw [hr]
    dsimp only
    rw [if_pos hexp]
    refine ⟨rfl, ?_⟩
    intro x hx
    have hb := (List.mem_filter.mp hx).2
    rw [bne_iff_ne] at hb
    exact hb
  · intro r hr
    rw [set_rows_eq hp c now prompt modelName temperature response hopen] at hr
    have hrL : r ∈ liveRows hp c now prompt modelName temperature response := by
      by_cases hlt : c.maxEntries <
          (liveRows hp c now prompt modelName temperature response).length
      · rw [if_pos hlt] at hr
        exact List.mem_mergeSort.mp (List.drop_subset _ _ hr)
      · rw [if_neg hlt] at hr
        exact hr
    exact of_decide_eq_true (List.mem_filter.mp hrL).2
  · intro hlen
    rw [set_rows_eq hp c now prompt modelName temperature response hopen,
      if_neg (not_lt.mpr hlen)]
  · intro hlt
    rw [set_rows_eq hp c now prompt modelName temperature response hopen,
      if_pos hlt]
    have hsorted := List.sorted_mergeSort rowLE_trans rowLE_total
      (liveRows hp c now prompt modelName temperature response)
    have hperm := List.mergeSort_perm
      (liveRows hp c now prompt modelName temperature response) rowLE
    refine ⟨?_, ?_⟩
    · rw [List.length_drop, List.length_mergeSort]
      omega
    · refine ⟨((liveRows hp c now prompt modelName temperature response).mergeSort
        rowLE).take
        ((liveRows hp c now prompt modelName temperature response).length -
          c.maxEntries), ?_, ?_⟩
      · rw [List.take_append_drop]
        exact hperm.symm
      · intro d hd k hk
        rw [← List.take_append_drop
          ((liveRows hp c now prompt modelName temperature response).length -
            c.maxEntries)
          ((liveRows hp c now prompt modelName temperature response).mergeSort rowLE)]
          at hsorted
        have hrel := (List.pairwise_append.mp hsorted).2.2 d hd k hk
        unfold rowLE at hrel
        exact of_decide_eq_true hrel

/-- Witness for C2: a one-row cache holding an expired entry; the lookup
misses and deletes it. -/
theorem llm_cache_eviction_witness :
    (staleCache.connOpen = true ∧
      staleCache.rows.find?
        (fun x => x.promptHash == (fun p m (_ : ℚ) => p ++ m) "p" "model" 0) =
        some staleRow ∧
      staleCache.maxAgeHours < ((7200 : ℚ) - staleRow.createdAt) / 3600) ∧
    ((staleCache.get (fun p m _ => p ++ m) 7200 "p" "model" 0).1 = none ∧
      ∀ x ∈ (staleCache.get (fun p m _ => p ++ m) 7200 "p" "model" 0).2.rows,
        x.promptHash ≠ (fun p m (_ : ℚ) => p ++ m) "p" "model" 0) := by
  refine ⟨⟨rfl, rfl, by norm_num [staleCache, staleRow]⟩, ?_⟩
  exact (llm_cache_eviction (fun p m _ => p ++ m) staleCache
      7200 "p" "model" 0 "new" rfl).1 staleRow rfl
      (by norm_num [staleCache, staleRow])

end RFSN
